import Mathlib

set_option maxHeartbeats 1000000

/-! Shallow embedding of the `MarkdownFileBrowser` class from
`src/python/packages/autogen-ext/src/autogen_ext/agents/file_surfer/_markdown_file_browser.py`.

Python strings are modelled as `List Char`.  The external markitdown
converter and the file system (the spec's "ContentLoader" boundary, §6)
are modelled by an explicit `LoadOutcome` argument at the open boundary:
`dir`/`file` carry the converter's title and text (the `dir` case is the
`os.path.isdir` branch, which disables page splitting), and the three
failure constructors correspond to the three exception handlers of
`_open_path`.  Loops (`while`, `re`-scans) are modelled with an explicit
fuel argument equal to an upper bound on the number of iterations, so
that every definition is executable by kernel reduction; fuel adequacy
is proved where a claim depends on it.  The Python `\w` character class
is modelled on its ASCII fragment (letters, digits, underscore). -/

/-- The whitespace set used by `_split_pages`: `[" ", "\t", "\r", "\n"]`. -/
def isBreakChar (c : Char) : Bool := c = ' ' || c = '\t' || c = '\r' || c = '\n'

/-- ASCII fragment of Python's regex word class `\w`. -/
def isWordChar (c : Char) : Bool := c.isAlphanum || c = '_'

/-- Python `str.strip()`: drop whitespace from both ends. -/
def stripWs (s : List Char) : List Char :=
  ((s.dropWhile Char.isWhitespace).reverse.dropWhile Char.isWhitespace).reverse

/-- One step of the inner `while` of `_split_pages`:
`while end_idx < len(content) and content[end_idx - 1] not in [" ", "\t", "\r", "\n"]: end_idx += 1`.
The fuel bounds the iteration count; `content.length` suffices. -/
def extendEndAux (content : List Char) : Nat → Nat → Nat
  | 0, e => e
  | fuel + 1, e =>
    if e < content.length && !(isBreakChar (content.getD (e - 1) ' ')) then
      extendEndAux content fuel (e + 1)
    else e

/-- The word-boundary adjustment of `_split_pages` applied to a proposed page end. -/
def extendEnd (content : List Char) (e : Nat) : Nat :=
  extendEndAux content content.length e

/-- The page-emitting `while start_idx < len(self._page_content)` loop of `_split_pages`.
The fuel bounds the number of pages; `content.length` suffices when `1 ≤ vs`. -/
def splitPagesAux (content : List Char) (vs : Nat) : Nat → Nat → List (Nat × Nat)
  | 0, _ => []
  | fuel + 1, start_idx =>
    if start_idx < content.length then
      let end_idx := extendEnd content (min (start_idx + vs) content.length)
      (start_idx, end_idx) :: splitPagesAux content vs fuel end_idx
    else []

/-- `MarkdownFileBrowser._split_pages`, as a function of the page body and
`viewport_size`: returns the list of `(start, end)` viewport pages. -/
def split_pages (content : List Char) (vs : Nat) : List (Nat × Nat) :=
  if content.length = 0 then [(0, 0)]
  else splitPagesAux content vs content.length 0

/-- The browser state.  The fields mirror the attributes of `MarkdownFileBrowser`:
`find_on_page_query` and `find_on_page_last_result` model the underscored
attributes `_find_on_page_query` / `_find_on_page_last_result` that the search
methods read and write, while `stray_find_on_page_query` /
`stray_find_on_page_viewport` model the distinct, differently named attributes
`find_on_page_query` / `find_on_page_viewport` that `set_path` assigns (lines
69-70 of the source) and that no other code reads. -/
structure Browser where
  viewport_size : Nat
  history : List (List Char × Nat)
  page_title : Option (List Char)
  viewport_current_page : Nat
  viewport_pages : List (Nat × Nat)
  page_content : List Char
  find_on_page_query : Option (List Char)
  find_on_page_last_result : Option Nat
  stray_find_on_page_query : Option (List Char)
  stray_find_on_page_viewport : Option Nat

/-- Python slice `content[a:b]` for natural bounds. -/
def pySlice (content : List Char) (a b : Nat) : List Char :=
  (content.drop a).take (b - a)

/-- The text of page `i`: `self.page_content[bounds[0]:bounds[1]]`. -/
def pageText (b : Browser) (i : Nat) : List Char :=
  let bounds := b.viewport_pages.getD i (0, 0)
  pySlice b.page_content bounds.1 bounds.2

/-- The `viewport` property. -/
def viewport (b : Browser) : List Char :=
  pageText b b.viewport_current_page

/-- `MarkdownFileBrowser._set_page_content`. -/
def set_page_content (b : Browser) (content : List Char) (split : Bool) : Browser :=
  let pages := if split then split_pages content b.viewport_size
               else [(0, content.length)]
  let cur := if pages.length ≤ b.viewport_current_page then pages.length - 1
             else b.viewport_current_page
  { b with page_content := content, viewport_pages := pages,
           viewport_current_page := cur }

/-- `MarkdownFileBrowser.page_down`: `min(current + 1, len(pages) - 1)`. -/
def page_down (b : Browser) : Browser :=
  let newPage := min (b.viewport_current_page + 1) (b.viewport_pages.length - 1)
  { b with viewport_current_page := newPage }

/-- `MarkdownFileBrowser.page_up`: `max(current - 1, 0)`, i.e. truncated subtraction. -/
def page_up (b : Browser) : Browser :=
  { b with viewport_current_page := b.viewport_current_page - 1 }

/-- `re.sub(r"\*", "__STAR__", query)`. -/
def subStar : List Char → List Char
  | [] => []
  | c :: rest =>
    if c = '*' then "__STAR__".toList ++ subStar rest
    else c :: subStar rest

/-- `re.split(r"\W+", s)`: pieces are the maximal word-character runs, with an
empty piece at an end whose boundary is touched by a separator run.  The fuel
bounds the number of separator runs; `s.length` suffices (the fuel-0 fallback
is only reached at `s = []`, where it returns the correct `[[]]`). -/
def reSplitAux : Nat → List Char → List (List Char)
  | 0, s => [s.takeWhile isWordChar]
  | fuel + 1, s =>
    let w := s.takeWhile isWordChar
    let rest := s.dropWhile isWordChar
    match rest with
    | [] => [w]
    | _ :: _ => w :: reSplitAux fuel (rest.dropWhile (fun c => !isWordChar c))

/-- `re.split(r"\W+", s)` with adequate fuel. -/
def reSplitNonWord (s : List Char) : List (List Char) :=
  reSplitAux s.length s

/-- Python `s.replace(pat, repl)`: leftmost, non-overlapping, the replacement
text is not rescanned.  Fuel bounds the scan; `s.length` suffices for a
non-empty `pat` (the fuel-0 fallback is only reached at `s = []`). -/
def replaceAllAux (pat repl : List Char) : Nat → List Char → List Char
  | 0, s => s
  | _ + 1, [] => []
  | fuel + 1, c :: rest =>
    if !pat.isEmpty && pat.isPrefixOf (c :: rest) then
      repl ++ replaceAllAux pat repl fuel ((c :: rest).drop pat.length)
    else c :: replaceAllAux pat repl fuel rest

/-- Python `s.replace(pat, repl)` with adequate fuel. -/
def replaceAll (s pat repl : List Char) : List Char :=
  replaceAllAux pat repl s.length s

/-- The query normalization of `_find_next_viewport` (lines 155-158):
star substitution, collapse of non-word runs to single spaces with
stripping, wrapping in spaces, merging of a free-standing star with the
preceding word, star-to-`.*` translation, lowercasing. -/
def normalizeQuery (query : List Char) : List Char :=
  let n1 := subStar query
  let n2 := (' ' :: stripWs (List.intercalate [' '] (reSplitNonWord n1))) ++ [' ']
  let n3 := replaceAll n2 (" __STAR__ ".toList) ("__STAR__ ".toList)
  let n4 := replaceAll n3 ("__STAR__".toList) (".*".toList)
  n4.map Char.toLower

/-- The page-content normalization of `_find_next_viewport` (line 172):
`" " + (" ".join(re.split(r"\W+", content))).strip().lower() + " "`. -/
def normalizeContent (content : List Char) : List Char :=
  (' ' :: (stripWs (List.intercalate [' '] (reSplitNonWord content))).map Char.toLower)
    ++ [' ']

/-- An element of the normalized query pattern: a literal character, or the
two-character wildcard `.*` produced from `__STAR__`. -/
inductive PatElem where
  | lit (c : Char)
  | star

/-- Parse the normalized query into pattern elements.  By construction the
normalized query consists of word characters, spaces, and `.*` pairs, so a
`.` only occurs immediately followed by `*`. -/
def parsePat : List Char → List PatElem
  | [] => []
  | '.' :: '*' :: rest => PatElem.star :: parsePat rest
  | c :: rest => PatElem.lit c :: parsePat rest

/-- Try a match continuation on every suffix of the text (the semantics of a
greedy-or-backtracking `.*`, which is existence-equivalent). -/
def matchStar (mh : List Char → Bool) : List Char → Bool
  | [] => mh []
  | c :: xs => mh (c :: xs) || matchStar mh xs

/-- Whether the pattern matches a prefix of the text, as `re` would at a
fixed starting position. -/
def matchHere : List PatElem → List Char → Bool
  | [] => fun _ => true
  | PatElem.lit c :: ps => fun s =>
      match s with
      | [] => false
      | x :: xs => x = c && matchHere ps xs
  | PatElem.star :: ps => fun s => matchStar (matchHere ps) s

/-- `re.search`: the pattern matches starting at some position of the text
(the position one past the end included, for patterns matching the empty
string). -/
def searchB (ps : List PatElem) : List Char → Bool
  | [] => matchHere ps []
  | c :: xs => matchHere ps (c :: xs) || searchB ps xs

/-- Whether page `i` matches the normalized query `nquery`:
the body of the `for i in idxs` loop of `_find_next_viewport`. -/
def pageMatches (b : Browser) (nquery : List Char) (i : Nat) : Bool :=
  searchB (parsePat nquery) (normalizeContent (pageText b i))

/-- Python `range(a, a + n)`. -/
def pyRangeAux (a : Nat) : Nat → List Nat
  | 0 => []
  | n + 1 => a :: pyRangeAux (a + 1) n

/-- Python `range(a, b)`. -/
def pyRange (a b : Nat) : List Nat := pyRangeAux a (b - a)

/-- The circular index order of `_find_next_viewport`:
`range(starting_viewport, len(pages))` followed by `range(0, starting_viewport)`. -/
def idxsFrom (s len : Nat) : List Nat := pyRange s len ++ pyRange 0 s

/-- The `for i in idxs: ... return i` loop: first index whose page matches. -/
def scanPages (p : Nat → Bool) : List Nat → Option Nat
  | [] => none
  | i :: rest => if p i then some i else scanPages p rest

/-- `MarkdownFileBrowser._find_next_viewport`. -/
def find_next_viewport (b : Browser) (query : Option (List Char))
    (startingViewport : Nat) : Option Nat :=
  match query with
  | none => none
  | some q =>
    let nquery := normalizeQuery q
    if stripWs nquery = [] then none
    else scanPages (fun i => pageMatches b nquery i)
           (idxsFrom startingViewport b.viewport_pages.length)

/-- `MarkdownFileBrowser.find_next`. -/
def find_next (b : Browser) : Option (List Char) × Browser :=
  match b.find_on_page_query with
  | none => (none, b)
  | some q =>
    let starting : Nat :=
      match b.find_on_page_last_result with
      | none => 0
      | some last =>
        if b.viewport_pages.length ≤ last + 1 then 0 else last + 1
    match find_next_viewport b (some q) starting with
    | none => (none, { b with find_on_page_last_result := none })
    | some m =>
      let b2 := { b with viewport_current_page := m,
                         find_on_page_last_result := some m }
      (some (viewport b2), b2)

/-- `MarkdownFileBrowser.find_on_page`: returns the Python return value
(`viewport` text or `None`) paired with the updated state. -/
def find_on_page (b : Browser) (query : List Char) : Option (List Char) × Browser :=
  if b.find_on_page_query = some query ∧
     b.find_on_page_last_result = some b.viewport_current_page then
    find_next b
  else
    let b1 := { b with find_on_page_query := some query }
    match find_next_viewport b1 (some query) b1.viewport_current_page with
    | none => (none, { b1 with find_on_page_last_result := none })
    | some m =>
      let b2 := { b1 with viewport_current_page := m,
                          find_on_page_last_result := some m }
      (some (viewport b2), b2)

/-- The outcome of the external-converter/file-system boundary inside
`_open_path`: the `os.path.isdir` branch (`convert_stream` on the synthesized
listing, pagination disabled), the file branch (`convert_local`, paginated),
or one of the three caught exceptions. -/
inductive LoadOutcome where
  | dir (title : Option (List Char)) (text : List Char)
  | file (title : Option (List Char)) (text : List Char)
  | unsupportedFormat
  | conversionFailure
  | notFound

/-- The body written for a `FileNotFoundError`: `f"# 未找到文件： {path}"`. -/
def msgNotFound (path : List Char) : List Char :=
  "# 未找到文件： ".toList ++ path

/-- The body written for an `UnsupportedFormatException`:
`f"# 无法预览'{path}' 作为 Markdown."` (`Char.ofNat 39` is the source's
ASCII apostrophe). -/
def msgUnsupported (path : List Char) : List Char :=
  "# 无法预览".toList ++ [Char.ofNat 39] ++ path ++ [Char.ofNat 39] ++
    " 作为 Markdown.".toList

/-- The body written for a `FileConversionException`: `f"# 转换时出错'{path}' 到 Markdown。"`. -/
def msgConversion (path : List Char) : List Char :=
  "# 转换时出错".toList ++ [Char.ofNat 39] ++ path ++ [Char.ofNat 39] ++
    " 到 Markdown。".toList

/-- `MarkdownFileBrowser._open_path`, with the converter/file-system boundary
supplied as a `LoadOutcome`. -/
def open_path_impl (b : Browser) (path : List Char) (outcome : LoadOutcome) : Browser :=
  match outcome with
  | LoadOutcome.dir t text => set_page_content { b with page_title := t } text false
  | LoadOutcome.file t text => set_page_content { b with page_title := t } text true
  | LoadOutcome.unsupportedFormat =>
      set_page_content { b with page_title := some ("UnsupportedFormatException".toList) }
        (msgUnsupported path) true
  | LoadOutcome.conversionFailure =>
      set_page_content { b with page_title := some ("FileConversionException.".toList) }
        (msgConversion path) true
  | LoadOutcome.notFound =>
      set_page_content { b with page_title := some ("FileNotFoundError".toList) }
        (msgNotFound path) true

/-- `MarkdownFileBrowser.set_path` after path resolution (`path` is the
resolved path; resolution itself is a file-system query at the external
boundary).  Appends to history, opens, resets the page index to 0, and then
performs the two assignments of lines 69-70, which write the never-read
attributes modelled by the `stray_` fields — not the underscored search
cursor. -/
def set_path (b : Browser) (path : List Char) (timestamp : Nat)
    (outcome : LoadOutcome) : Browser :=
  let b1 := { b with history := b.history ++ [(path, timestamp)] }
  let b2 := open_path_impl b1 path outcome
  { b2 with viewport_current_page := 0,
            stray_find_on_page_query := none,
            stray_find_on_page_viewport := none }

/-- `MarkdownFileBrowser.open_path`: `set_path` then return the viewport. -/
def open_path (b : Browser) (path : List Char) (timestamp : Nat)
    (outcome : LoadOutcome) : List Char × Browser :=
  let b1 := set_path b path timestamp outcome
  (viewport b1, b1)

/-- A session state with an empty document, used as the base of the concrete
scenarios below. -/
def demoBase : Browser :=
  { viewport_size := 100
    history := []
    page_title := none
    viewport_current_page := 0
    viewport_pages := [(0, 0)]
    page_content := []
    find_on_page_query := none
    find_on_page_last_result := none
    stray_find_on_page_query := none
    stray_find_on_page_viewport := none }

/-! ## Concrete scenario states -/

/-- Open a file `"foo bar"`, search for `"foo"` (match on page 0). -/
def demoC1a : Browser :=
  set_path demoBase ("/a".toList) 0 (LoadOutcome.file none ("foo bar".toList))

/-- State after the successful `find_on_page("foo")`. -/
def demoC1b : Browser := (find_on_page demoC1a ("foo".toList)).2

/-- Open a different file `"foo baz"` afterwards. -/
def demoC1c : Browser :=
  set_path demoC1b ("/b".toList) 1 (LoadOutcome.file none ("foo baz".toList))

/-- A state for the repeated-search scenario: query `"abc"` already active with
its match remembered on the current page. -/
def cbC5 : Browser :=
  { demoBase with page_content := "abc".toList, viewport_pages := [(0, 3)],
                  find_on_page_query := some ("abc".toList),
                  find_on_page_last_result := some 0 }

/-- Claim C1: the claim states that after `set_path` completes the search
cursor is cleared (query and last-match index both `None`) and an immediate
`find_next()` reports no match.  The code instead assigns the misspelled
attributes `find_on_page_query` / `find_on_page_viewport` (lines 69-70), so
after opening `"/b"` the stale query `"foo"` and last-match index 0 survive
and `find_next()` returns a match from the newly opened document. -/
theorem claim_C1 :
    demoC1c.find_on_page_query = some ("foo".toList) ∧
    demoC1c.find_on_page_last_result = some 0 ∧
    (find_next demoC1c).1 = some ("foo baz".toList) := by decide

/-- The body of the pagination scenario of C4. -/
def bodyC4 : List Char := "aaaa bbbb cccc".toList

/-- Claim C4 (counterexample): with target page size 6 the splitter does not
produce `[(0,5), (5,10), (10,14)]` — the proposed end 6 falls inside `bbbb`
and is advanced forward, never shortened back to the space at index 4. -/
theorem claim_C4_cex : split_pages bodyC4 6 ≠ [(0, 5), (5, 10), (10, 14)] := by decide

/-- Claim C4 (amended): for the body `"aaaa bbbb cccc"` with target page size
6, pagination produces exactly `[(0,10), (10,14)]`: the proposed boundary 6
is advanced to just past the space at index 9, and the final page absorbs the
remainder. -/
theorem claim_C4 : split_pages bodyC4 6 = [(0, 10), (10, 14)] := by decide

/-- Claim C5: when the submitted query equals the previously submitted query
and the current page equals the remembered last-match page, `find_on_page`
is observably identical to `find_next`: same returned value and same
resulting state. -/
theorem claim_C5 (b : Browser) (q : List Char)
    (h1 : b.find_on_page_query = some q)
    (h2 : b.find_on_page_last_result = some b.viewport_current_page) :
    find_on_page b q = find_next b := by
  unfold find_on_page
  rw [if_pos ⟨h1, h2⟩]

/-- Witness for C5 at a concrete state. -/
theorem claim_C5_witness :
    (cbC5.find_on_page_query = some ("abc".toList) ∧
     cbC5.find_on_page_last_result = some cbC5.viewport_current_page) ∧
    find_on_page cbC5 ("abc".toList) = find_next cbC5 :=
  ⟨⟨by decide, by decide⟩, claim_C5 cbC5 ("abc".toList) (by decide) (by decide)⟩

/-- `find_next` only writes `viewport_current_page` and
`find_on_page_last_result`; every other field is preserved. -/
theorem find_next_frame (b : Browser) :
    (find_next b).2.page_content = b.page_content ∧
    (find_next b).2.viewport_pages = b.viewport_pages ∧
    (find_next b).2.page_title = b.page_title ∧
    (find_next b).2.history = b.history ∧
    (find_next b).2.find_on_page_query = b.find_on_page_query ∧
    (find_next b).2.viewport_size = b.viewport_size ∧
    (find_next b).2.stray_find_on_page_query = b.stray_find_on_page_query ∧
    (find_next b).2.stray_find_on_page_viewport = b.stray_find_on_page_viewport := by
  unfold find_next
  cases hq : b.find_on_page_query with
  | none => simp [hq]
  | some q =>
    simp only [hq]
    cases hv : find_next_viewport b (some q) _ with
    | none => simp [hv, hq]
    | some m => simp [hv, hq]

/-- `find_on_page` only writes the search cursor and
`viewport_current_page`; content, pages, title and history are preserved. -/
theorem find_on_page_frame (b : Browser) (q : List Char) :
    (find_on_page b q).2.page_content = b.page_content ∧
    (find_on_page b q).2.viewport_pages = b.viewport_pages ∧
    (find_on_page b q).2.page_title = b.page_title ∧
    (find_on_page b q).2.history = b.history ∧
    (find_on_page b q).2.viewport_size = b.viewport_size ∧
    (find_on_page b q).2.stray_find_on_page_query = b.stray_find_on_page_query ∧
    (find_on_page b q).2.stray_find_on_page_viewport = b.stray_find_on_page_viewport := by
  unfold find_on_page
  split
  · have h := find_next_frame b
    tauto
  · dsimp only
    rcases find_next_viewport _ (some q) _ with _ | m <;> simp

/-- Claim C10: `find_on_page` and `find_next` leave the document content, the
page ranges, the page title and the visit history unchanged; only
`viewport_current_page` and the search-cursor fields may change. -/
theorem claim_C10 (b : Browser) (q : List Char) :
    ((find_on_page b q).2.page_content = b.page_content ∧
     (find_on_page b q).2.viewport_pages = b.viewport_pages ∧
     (find_on_page b q).2.page_title = b.page_title ∧
     (find_on_page b q).2.history = b.history) ∧
    ((find_next b).2.page_content = b.page_content ∧
     (find_next b).2.viewport_pages = b.viewport_pages ∧
     (find_next b).2.page_title = b.page_title ∧
     (find_next b).2.history = b.history) := by
  have h1 := find_on_page_frame b q
  have h2 := find_next_frame b
  tauto

/-! ## Pagination lemmas -/

/-- The word-boundary adjustment never moves an end backwards. -/
theorem extendEndAux_ge (content : List Char) :
    ∀ f e, e ≤ extendEndAux content f e := by
  intro f
  induction f with
  | zero => intro e; exact Nat.le_refl e
  | succ f ih =>
    intro e
    unfold extendEndAux
    split
    · exact Nat.le_trans (Nat.le_succ e) (ih (e + 1))
    · exact Nat.le_refl e

/-- The word-boundary adjustment never moves an end past the body length. -/
theorem extendEndAux_le (content : List Char) :
    ∀ f e, e ≤ content.length → extendEndAux content f e ≤ content.length := by
  intro f
  induction f with
  | zero => intro e h; exact h
  | succ f ih =>
    intro e h
    unfold extendEndAux
    split
    · next hc =>
      have hc' : e < content.length := by
        simpa using (Bool.and_eq_true_iff.mp hc).1
      exact ih (e + 1) hc'
    · exact h

/-- With adequate fuel, the adjusted end satisfies the negation of the loop
guard: it reached the body length, or the character before it is whitespace. -/
theorem extendEndAux_stop (content : List Char) :
    ∀ f e, content.length - e ≤ f →
      content.length ≤ extendEndAux content f e ∨
        isBreakChar (content.getD (extendEndAux content f e - 1) ' ') = true := by
  intro f
  induction f with
  | zero => intro e h; left; show content.length ≤ e; omega
  | succ f ih =>
    intro e h
    unfold extendEndAux
    split
    · next hc =>
      have hc' : e < content.length := by
        simpa using (Bool.and_eq_true_iff.mp hc).1
      exact ih (e + 1) (by omega)
    · next hc =>
      rcases Bool.and_eq_false_iff.mp (Bool.not_eq_true _ ▸ hc) with h1 | h2
      · left
        have : ¬ e < content.length := by simpa using h1
        omega
      · right
        simpa using h2

/-- An end at or past the body length is a fixed point of the adjustment. -/
theorem extendEndAux_of_ge (content : List Char) (f e : Nat)
    (h : content.length ≤ e) : extendEndAux content f e = e := by
  cases f with
  | zero => rfl
  | succ f =>
    unfold extendEndAux
    rw [if_neg]
    simp only [Bool.and_eq_true, decide_eq_true_eq]
    intro hc
    omega

/-- A start at or past the body length emits no pages. -/
theorem splitPagesAux_of_ge (content : List Char) (vs f start : Nat)
    (h : content.length ≤ start) : splitPagesAux content vs f start = [] := by
  cases f with
  | zero => rfl
  | succ f =>
    unfold splitPagesAux
    rw [if_neg (by omega)]

/-- For a positive target size and an in-range start, the emitted page end is
strictly past the start and at most the body length. -/
theorem extendEnd_bounds (content : List Char) (vs : Nat) (hvs : 1 ≤ vs)
    (start : Nat) (h : start < content.length) :
    start + 1 ≤ extendEnd content (min (start + vs) content.length) ∧
      extendEnd content (min (start + vs) content.length) ≤ content.length := by
  constructor
  · have h1 : start + 1 ≤ min (start + vs) content.length := by omega
    exact Nat.le_trans h1 (extendEndAux_ge content content.length _)
  · exact extendEndAux_le content content.length _ (Nat.min_le_right _ _)

/-- `contiguous a ps b`: the ranges in `ps` form a chain of non-empty
half-open intervals, the first starting at `a`, each subsequent one starting
where the previous ended, the last ending at `b`.  This packages
contiguity, non-overlap and exact coverage of `[a, b)`. -/
def contiguous : Nat → List (Nat × Nat) → Nat → Prop
  | a, [], b => a = b
  | a, p :: rest, b => p.1 = a ∧ a < p.2 ∧ contiguous p.2 rest b

theorem contiguous_le : ∀ (ps : List (Nat × Nat)) (a b : Nat),
    contiguous a ps b → a ≤ b := by
  intro ps
  induction ps with
  | nil => intro a b h; exact Nat.le_of_eq h
  | cons p rest ih =>
    intro a b h
    obtain ⟨h1, h2, h3⟩ := h
    have := ih p.2 b h3
    omega

/-- A contiguous chain covers exactly the interval `[a, b)`. -/
theorem contiguous_mem_iff : ∀ (ps : List (Nat × Nat)) (a b : Nat),
    contiguous a ps b →
      ∀ i, (∃ p ∈ ps, p.1 ≤ i ∧ i < p.2) ↔ (a ≤ i ∧ i < b) := by
  intro ps
  induction ps with
  | nil =>
    intro a b h i
    have hab : a = b := h
    simp only [List.not_mem_nil, false_and, exists_false, false_iff]
    omega
  | cons p rest ih =>
    intro a b h i
    obtain ⟨hp1, hp2, hrest⟩ := h
    have hiff := ih p.2 b hrest i
    have hle := contiguous_le rest p.2 b hrest
    constructor
    · rintro ⟨r, hr, hri⟩
      rcases List.mem_cons.mp hr with rfl | hr'
      · omega
      · have := hiff.mp ⟨r, hr', hri⟩
        omega
    · intro hi
      by_cases hc : i < p.2
      · exact ⟨p, List.mem_cons_self p rest, by omega⟩
      · obtain ⟨r, hr, hri⟩ := hiff.mpr (by omega)
        exact ⟨r, List.mem_cons_of_mem p hr, hri⟩

/-- Every range in a contiguous chain is non-empty. -/
theorem contiguous_strict : ∀ (ps : List (Nat × Nat)) (a b : Nat),
    contiguous a ps b → ∀ p ∈ ps, p.1 < p.2 := by
  intro ps
  induction ps with
  | nil => intro a b _ p hp; cases hp
  | cons q rest ih =>
    intro a b h p hp
    rcases List.mem_cons.mp hp with rfl | hp'
    · have := h.1
      have := h.2.1
      omega
    · exact ih q.2 b h.2.2 p hp'

/-- With adequate fuel the page loop produces a contiguous chain from the
start to the end of the body. -/
theorem splitPagesAux_contiguous (content : List Char) (vs : Nat) (hvs : 1 ≤ vs) :
    ∀ f start, start < content.length → content.length - start ≤ f →
      contiguous start (splitPagesAux content vs f start) content.length := by
  intro f
  induction f with
  | zero => intro start h1 h2; omega
  | succ f ih =>
    intro start h1 h2
    unfold splitPagesAux
    rw [if_pos h1]
    obtain ⟨hgt, hle⟩ := extendEnd_bounds content vs hvs start h1
    refine ⟨rfl, by omega, ?_⟩
    by_cases hcase : extendEnd content (min (start + vs) content.length) < content.length
    · exact ih _ hcase (by omega)
    · have heq : extendEnd content (min (start + vs) content.length) = content.length := by
        omega
      rw [splitPagesAux_of_ge content vs f _ (by omega)]
      exact heq

/-- `_split_pages` never returns an empty page list. -/
theorem split_pages_ne_nil (content : List Char) (vs : Nat) (hvs : 1 ≤ vs) :
    split_pages content vs ≠ [] := by
  unfold split_pages
  split
  · simp
  · next h =>
    have h1 : 0 < content.length := Nat.pos_of_ne_zero h
    have := splitPagesAux_contiguous content vs hvs content.length 0 h1 (by omega)
    intro hnil
    rw [hnil] at this
    have : (0 : Nat) = content.length := this
    omega

/-- For a non-empty body, `_split_pages` produces a contiguous chain covering
`[0, length)`. -/
theorem split_pages_contiguous (content : List Char) (vs : Nat) (hvs : 1 ≤ vs)
    (hne : content ≠ []) :
    contiguous 0 (split_pages content vs) content.length := by
  unfold split_pages
  have h1 : 0 < content.length := List.length_pos.mpr hne
  rw [if_neg (by omega)]
  exact splitPagesAux_contiguous content vs hvs content.length 0 h1 (by omega)

/-- Fold a sequence of `page_down` (`true`) / `page_up` (`false`) calls. -/
def navFold : List Bool → Browser → Browser
  | [], b => b
  | d :: rest, b => navFold rest (if d then page_down b else page_up b)

theorem navFold_pages : ∀ (navs : List Bool) (b : Browser),
    (navFold navs b).viewport_pages = b.viewport_pages := by
  intro navs
  induction navs with
  | nil => intro b; rfl
  | cons d rest ih =>
    intro b
    unfold navFold
    rw [ih]
    cases d <;> simp [page_down, page_up]

/-- Any sequence of page navigation calls keeps the page index in bounds. -/
theorem navFold_bound : ∀ (navs : List Bool) (b : Browser),
    b.viewport_current_page < b.viewport_pages.length →
    (navFold navs b).viewport_current_page < (navFold navs b).viewport_pages.length := by
  intro navs
  induction navs with
  | nil => intro b h; exact h
  | cons d rest ih =>
    intro b h
    unfold navFold
    apply ih
    cases d <;> simp [page_down, page_up] <;> omega

/-- Claim C2: pagination always yields a non-empty page list; the empty body
yields the single page `(0, 0)`; for a non-empty body the pages form a
contiguous non-overlapping chain (`contiguous`) whose union is exactly
`[0, length)`; and the current page index stays within
`[0, len(viewport_pages) - 1]` under any sequence of `page_up`/`page_down`. -/
theorem claim_C2 (body : List Char) (vs : Nat) (hvs : 1 ≤ vs) :
    split_pages body vs ≠ [] ∧
    (body = [] → split_pages body vs = [(0, 0)]) ∧
    (body ≠ [] → contiguous 0 (split_pages body vs) body.length) ∧
    (∀ i, (∃ p ∈ split_pages body vs, p.1 ≤ i ∧ i < p.2) ↔ i < body.length) ∧
    (∀ (b : Browser) (navs : List Bool), b.viewport_pages = split_pages body vs →
       b.viewport_current_page < b.viewport_pages.length →
       (navFold navs b).viewport_current_page < (navFold navs b).viewport_pages.length) := by
  refine ⟨split_pages_ne_nil body vs hvs, ?_, ?_, ?_, ?_⟩
  · intro h
    subst h
    rfl
  · intro hne
    exact split_pages_contiguous body vs hvs hne
  · intro i
    by_cases hne : body = []
    · subst hne
      simp [split_pages]
    · have h := contiguous_mem_iff _ 0 body.length
        (split_pages_contiguous body vs hvs hne) i
      rw [h]
      omega
  · intro b navs _ h
    exact navFold_bound navs b h

/-- Witness for C2 at a concrete body and target size. -/
theorem claim_C2_witness :
    (1 ≤ 3) ∧
    (split_pages ("ab cd".toList) 3 ≠ [] ∧
     ("ab cd".toList = [] → split_pages ("ab cd".toList) 3 = [(0, 0)]) ∧
     ("ab cd".toList ≠ [] → contiguous 0 (split_pages ("ab cd".toList) 3) ("ab cd".toList).length) ∧
     (∀ i, (∃ p ∈ split_pages ("ab cd".toList) 3, p.1 ≤ i ∧ i < p.2) ↔ i < ("ab cd".toList).length) ∧
     (∀ (b : Browser) (navs : List Bool), b.viewport_pages = split_pages ("ab cd".toList) 3 →
        b.viewport_current_page < b.viewport_pages.length →
        (navFold navs b).viewport_current_page < (navFold navs b).viewport_pages.length)) :=
  ⟨by decide, claim_C2 ("ab cd".toList) 3 (by decide)⟩

/-- With adequate fuel every emitted page end is in `[1, length]` and either
equals the body length or sits right after a whitespace character. -/
theorem splitPagesAux_word_safe (content : List Char) (vs : Nat) (hvs : 1 ≤ vs) :
    ∀ f start, ∀ p ∈ splitPagesAux content vs f start,
      p.2 ≤ content.length ∧ 1 ≤ p.2 ∧
        (p.2 = content.length ∨ isBreakChar (content.getD (p.2 - 1) ' ') = true) := by
  intro f
  induction f with
  | zero => intro start p hp; cases hp
  | succ f ih =>
    intro start p hp
    unfold splitPagesAux at hp
    by_cases hs : start < content.length
    · rw [if_pos hs] at hp
      obtain ⟨hgt, hle⟩ := extendEnd_bounds content vs hvs start hs
      rcases List.mem_cons.mp hp with rfl | hp'
      · refine ⟨hle, by omega, ?_⟩
        rcases extendEndAux_stop content content.length
            (min (start + vs) content.length) (by omega) with h | h
        · left
          have hee : extendEnd content (min (start + vs) content.length) =
              extendEndAux content content.length (min (start + vs) content.length) := rfl
          omega
        · right
          exact h
      · exact ih _ p hp'
    · rw [if_neg hs] at hp
      cases hp

/-- Claim C3: word-safety of page boundaries — for a non-empty body every
page produced by `_split_pages` either ends at the body length or ends right
after a whitespace character (space, tab, carriage return or newline). -/
theorem claim_C3 (body : List Char) (vs : Nat) (hvs : 1 ≤ vs) (hne : body ≠ []) :
    ∀ p ∈ split_pages body vs, p.2 = body.length ∨
      (1 ≤ p.2 ∧ p.2 - 1 < body.length ∧
        isBreakChar (body.getD (p.2 - 1) ' ') = true) := by
  intro p hp
  have h1 : 0 < body.length := List.length_pos.mpr hne
  unfold split_pages at hp
  rw [if_neg (by omega)] at hp
  have h := splitPagesAux_word_safe body vs hvs body.length 0 p hp
  rcases h.2.2 with h' | h'
  · left; exact h'
  · right
    exact ⟨h.2.1, by omega, h'⟩

/-- Witness for C3 at a concrete body and target size. -/
theorem claim_C3_witness :
    ((1 ≤ 3) ∧ "ab cd".toList ≠ []) ∧
    (∀ p ∈ split_pages ("ab cd".toList) 3, p.2 = ("ab cd".toList).length ∨
      (1 ≤ p.2 ∧ p.2 - 1 < ("ab cd".toList).length ∧
        isBreakChar (("ab cd".toList).getD (p.2 - 1) ' ') = true)) :=
  ⟨⟨by decide, by decide⟩, claim_C3 ("ab cd".toList) 3 (by decide) (by decide)⟩

/-- One unfolding of the page loop at an in-range start, successor-fuel form. -/
theorem splitPagesAux_succ (content : List Char) (vs f start : Nat)
    (hs : start < content.length) :
    splitPagesAux content vs (f + 1) start =
      (start, extendEnd content (min (start + vs) content.length)) ::
        splitPagesAux content vs f
          (extendEnd content (min (start + vs) content.length)) := by
  show (if start < content.length then
      let end_idx := extendEnd content (min (start + vs) content.length)
      (start, end_idx) :: splitPagesAux content vs f end_idx
    else []) = _
  rw [if_pos hs]

/-- The page loop emits at most `length - start` pages. -/
theorem splitPagesAux_length_le (content : List Char) (vs : Nat) (hvs : 1 ≤ vs) :
    ∀ f start, (splitPagesAux content vs f start).length ≤ content.length - start := by
  intro f
  induction f with
  | zero => intro start; simp [splitPagesAux]
  | succ f ih =>
    intro start
    by_cases hs : start < content.length
    · rw [splitPagesAux_succ content vs f start hs]
      simp only [List.length_cons]
      have hb := extendEnd_bounds content vs hvs start hs
      have := ih (extendEnd content (min (start + vs) content.length))
      omega
    · rw [splitPagesAux_of_ge content vs (f + 1) start (by omega)]
      simp

/-- Fuel irrelevance for the page loop: any two fuels at least
`length - start` produce the same pages — i.e. the `while` loop of
`_split_pages` terminates within `length - start` iterations. -/
theorem splitPagesAux_fuel (content : List Char) (vs : Nat) (hvs : 1 ≤ vs) :
    ∀ f g start, content.length - start ≤ f → content.length - start ≤ g →
      splitPagesAux content vs f start = splitPagesAux content vs g start := by
  intro f
  induction f with
  | zero =>
    intro g start h1 h2
    rw [splitPagesAux_of_ge content vs 0 start (by omega),
        splitPagesAux_of_ge content vs g start (by omega)]
  | succ f ih =>
    intro g start h1 h2
    cases g with
    | zero =>
      rw [splitPagesAux_of_ge content vs (f + 1) start (by omega),
          splitPagesAux_of_ge content vs 0 start (by omega)]
    | succ g =>
      by_cases hs : start < content.length
      · rw [splitPagesAux_succ content vs f start hs,
            splitPagesAux_succ content vs g start hs]
        have hb := extendEnd_bounds content vs hvs start hs
        congr 1
        exact ih g (extendEnd content (min (start + vs) content.length))
          (by omega) (by omega)
      · rw [splitPagesAux_of_ge content vs (f + 1) start (by omega),
            splitPagesAux_of_ge content vs (g + 1) start (by omega)]

/-- Claim C9: for a positive target size the splitter terminates — every
emitted page of a non-empty body is strictly increasing (`start < end`), the
number of pages is at most the body length (the empty body yields exactly the
single page `(0,0)`), and giving the loop any extra fuel beyond `length`
iterations changes nothing. -/
theorem claim_C9 (body : List Char) (vs : Nat) (hvs : 1 ≤ vs) :
    (body = [] → split_pages body vs = [(0, 0)]) ∧
    (body ≠ [] → ∀ p ∈ split_pages body vs, p.1 < p.2) ∧
    (body ≠ [] → (split_pages body vs).length ≤ body.length) ∧
    (∀ extra, splitPagesAux body vs (body.length + extra) 0 =
       splitPagesAux body vs body.length 0) := by
  refine ⟨?_, ?_, ?_, ?_⟩
  · intro h; subst h; rfl
  · intro hne
    exact contiguous_strict _ 0 body.length (split_pages_contiguous body vs hvs hne)
  · intro hne
    have h1 : 0 < body.length := List.length_pos.mpr hne
    unfold split_pages
    rw [if_neg (by omega)]
    have := splitPagesAux_length_le body vs hvs body.length 0
    omega
  · intro extra
    exact splitPagesAux_fuel body vs hvs (body.length + extra) body.length 0
      (by omega) (by omega)

/-- Witness for C9 at a concrete body and target size. -/
theorem claim_C9_witness :
    (1 ≤ 3) ∧
    (("ab cd".toList = [] → split_pages ("ab cd".toList) 3 = [(0, 0)]) ∧
     ("ab cd".toList ≠ [] → ∀ p ∈ split_pages ("ab cd".toList) 3, p.1 < p.2) ∧
     ("ab cd".toList ≠ [] → (split_pages ("ab cd".toList) 3).length ≤ ("ab cd".toList).length) ∧
     (∀ extra, splitPagesAux ("ab cd".toList) 3 (("ab cd".toList).length + extra) 0 =
        splitPagesAux ("ab cd".toList) 3 ("ab cd".toList).length 0)) :=
  ⟨by decide, claim_C9 ("ab cd".toList) 3 (by decide)⟩

/-- One unfolding of the page loop at an in-range start. -/
theorem splitPagesAux_pos (content : List Char) (vs f start : Nat) (hf : 1 ≤ f)
    (hs : start < content.length) :
    splitPagesAux content vs f start =
      (start, extendEnd content (min (start + vs) content.length)) ::
        splitPagesAux content vs (f - 1)
          (extendEnd content (min (start + vs) content.length)) := by
  cases f with
  | zero => omega
  | succ f =>
    rw [splitPagesAux_succ content vs f start hs]
    simp

/-- A non-empty body no longer than the target size is a single page. -/
theorem split_pages_of_le (content : List Char) (vs : Nat) (hne : content ≠ [])
    (hle : content.length ≤ vs) :
    split_pages content vs = [(0, content.length)] := by
  have h1 : 0 < content.length := List.length_pos.mpr hne
  unfold split_pages
  rw [if_neg (by omega)]
  rw [splitPagesAux_pos content vs content.length 0 (by omega) h1]
  have hmin : min (0 + vs) content.length = content.length := by omega
  rw [hmin]
  rw [show extendEnd content content.length = content.length from
    extendEndAux_of_ge content content.length content.length (Nat.le_refl _)]
  rw [splitPagesAux_of_ge content vs (content.length - 1) content.length (Nat.le_refl _)]

/-- The `FileNotFoundError` body is never empty. -/
theorem msgNotFound_ne_nil (path : List Char) : msgNotFound path ≠ [] := by
  unfold msgNotFound
  intro h
  rcases List.append_eq_nil.mp h with ⟨h1, _⟩
  exact absurd h1 (by decide)

/-- The full state produced by opening a path whose load raises
`FileNotFoundError`, when the failure body fits in one page. -/
theorem set_path_notFound (b : Browser) (path : List Char) (ts : Nat)
    (hvs : (msgNotFound path).length ≤ b.viewport_size) :
    set_path b path ts LoadOutcome.notFound =
      { viewport_size := b.viewport_size
        history := b.history ++ [(path, ts)]
        page_title := some ("FileNotFoundError".toList)
        viewport_current_page := 0
        viewport_pages := [(0, (msgNotFound path).length)]
        page_content := msgNotFound path
        find_on_page_query := b.find_on_page_query
        find_on_page_last_result := b.find_on_page_last_result
        stray_find_on_page_query := none
        stray_find_on_page_viewport := none } := by
  have hsp : split_pages (msgNotFound path) b.viewport_size =
      [(0, (msgNotFound path).length)] :=
    split_pages_of_le _ _ (msgNotFound_ne_nil path) hvs
  unfold set_path open_path_impl set_page_content
  simp only [hsp]
  simp

/-- Claim C8: a `NotFound` loader failure still completes the open — the
title is the failure marker `"FileNotFoundError"`, the body is the one-line
explanation that ends with the offending path, the path is appended to the
visit history exactly as on a successful open, and (when the message fits the
viewport size) the viewport shows the whole explanation. -/
theorem claim_C8 (b : Browser) (path : List Char) (ts : Nat)
    (hvs : (msgNotFound path).length ≤ b.viewport_size)
    (hnl : ¬ '\n' ∈ path) :
    (set_path b path ts LoadOutcome.notFound).page_title =
      some ("FileNotFoundError".toList) ∧
    (set_path b path ts LoadOutcome.notFound).page_content = msgNotFound path ∧
    List.IsSuffix path (set_path b path ts LoadOutcome.notFound).page_content ∧
    (set_path b path ts LoadOutcome.notFound).history = b.history ++ [(path, ts)] ∧
    viewport (set_path b path ts LoadOutcome.notFound) = msgNotFound path ∧
    ¬ '\n' ∈ viewport (set_path b path ts LoadOutcome.notFound) := by
  rw [set_path_notFound b path ts hvs]
  refine ⟨rfl, rfl, ⟨"# 未找到文件： ".toList, rfl⟩, rfl, ?_, ?_⟩
  · show pySlice (msgNotFound path) 0 ((msgNotFound path).length - 0) = msgNotFound path
    unfold pySlice
    simp
  · show ¬ '\n' ∈ pySlice (msgNotFound path) 0 ((msgNotFound path).length - 0)
    unfold pySlice
    simp only [Nat.sub_zero, List.drop_zero, List.take_length]
    unfold msgNotFound
    intro hmem
    rcases List.mem_append.mp hmem with h | h
    · exact absurd h (by decide)
    · exact hnl h

/-- Witness for C8 at a concrete path. -/
theorem claim_C8_witness :
    ((msgNotFound ("/missing.txt".toList)).length ≤ demoBase.viewport_size ∧
     ¬ '\n' ∈ ("/missing.txt".toList)) ∧
    ((set_path demoBase ("/missing.txt".toList) 5 LoadOutcome.notFound).page_title =
       some ("FileNotFoundError".toList) ∧
     (set_path demoBase ("/missing.txt".toList) 5 LoadOutcome.notFound).page_content =
       msgNotFound ("/missing.txt".toList) ∧
     List.IsSuffix ("/missing.txt".toList)
       (set_path demoBase ("/missing.txt".toList) 5 LoadOutcome.notFound).page_content ∧
     (set_path demoBase ("/missing.txt".toList) 5 LoadOutcome.notFound).history =
       demoBase.history ++ [(("/missing.txt".toList), 5)] ∧
     viewport (set_path demoBase ("/missing.txt".toList) 5 LoadOutcome.notFound) =
       msgNotFound ("/missing.txt".toList) ∧
     ¬ '\n' ∈ viewport (set_path demoBase ("/missing.txt".toList) 5 LoadOutcome.notFound)) :=
  ⟨⟨by decide, by decide⟩,
   claim_C8 demoBase ("/missing.txt".toList) 5 (by decide) (by decide)⟩

/-! ## Search normalization lemmas -/

/-- A whitespace character is not the wildcard. -/
theorem ws_ne_star {c : Char} (h : c.isWhitespace = true) : c ≠ '*' := by
  intro hc
  subst hc
  exact absurd h (by decide)

/-- A whitespace character is not a word character. -/
theorem ws_not_word {c : Char} (h : c.isWhitespace = true) : isWordChar c = false := by
  have h' : ((c = ' ' ∨ c = '\t') ∨ c = '\r') ∨ c = '\n' := by
    simpa [Char.isWhitespace] using h
  rcases h' with ((h' | h') | h') | h' <;> subst h' <;> decide

/-- Star substitution is the identity on star-free strings. -/
theorem subStar_id (q : List Char) (h : ∀ c ∈ q, c ≠ '*') : subStar q = q := by
  induction q with
  | nil => rfl
  | cons c rest ih =>
    unfold subStar
    rw [if_neg (h c (by simp))]
    rw [ih (fun x hx => h x (by simp [hx]))]

/-- Splitting the empty string gives one empty piece, at any fuel. -/
theorem reSplitAux_nil (f : Nat) : reSplitAux f [] = [[]] := by
  cases f <;> rfl

/-- Dropping while a predicate holds of every element empties the list. -/
theorem dropWhile_all (p : Char → Bool) :
    ∀ (l : List Char), (∀ x ∈ l, p x = true) → l.dropWhile p = [] := by
  intro l
  induction l with
  | nil => intro _; rfl
  | cons c rest ih =>
    intro h
    rw [List.dropWhile_cons, if_pos (h c (by simp))]
    exact ih (fun x hx => h x (by simp [hx]))

/-- Splitting a non-empty all-separator string gives two empty pieces. -/
theorem reSplitNonWord_sep (q : List Char) (hq : q ≠ [])
    (h : ∀ c ∈ q, isWordChar c = false) : reSplitNonWord q = [[], []] := by
  obtain ⟨c, rest, rfl⟩ := List.exists_cons_of_ne_nil hq
  have hc : isWordChar c = false := h c (by simp)
  have htw : (c :: rest).takeWhile isWordChar = [] := by
    simp [List.takeWhile_cons, hc]
  have hdw : (c :: rest).dropWhile isWordChar = c :: rest := by
    simp [List.dropWhile_cons, hc]
  have hdw2 : (c :: rest).dropWhile (fun x => !isWordChar x) = [] :=
    dropWhile_all _ _ (fun x hx => by simp [h x hx])
  show reSplitAux (c :: rest).length (c :: rest) = [[], []]
  rw [show (c :: rest).length = rest.length + 1 from rfl]
  unfold reSplitAux
  simp only [htw, hdw, hdw2, reSplitAux_nil]

/-- Normalizing an all-whitespace (possibly empty) query yields two spaces. -/
theorem normalizeQuery_ws (q : List Char) (h : ∀ c ∈ q, c.isWhitespace = true) :
    normalizeQuery q = [' ', ' '] := by
  by_cases hq : q = []
  · subst hq; rfl
  · have h1 : subStar q = q := subStar_id q (fun c hc => ws_ne_star (h c hc))
    have h2 : reSplitNonWord q = [[], []] :=
      reSplitNonWord_sep q hq (fun c hc => ws_not_word (h c hc))
    unfold normalizeQuery
    simp only [h1, h2]
    rfl

/-- `_find_next_viewport` rejects a query whose normalized form strips to
empty, in particular any all-whitespace query. -/
theorem find_next_viewport_ws (b : Browser) (q : List Char) (s : Nat)
    (h : ∀ c ∈ q, c.isWhitespace = true) :
    find_next_viewport b (some q) s = none := by
  unfold find_next_viewport
  simp only [normalizeQuery_ws q h]
  rfl

/-- `find_on_page` on an all-whitespace (or empty) query reports no match and
leaves the page index unchanged, from any state. -/
theorem find_on_page_ws (b : Browser) (q : List Char)
    (h : ∀ c ∈ q, c.isWhitespace = true) :
    (find_on_page b q).1 = none ∧
    (find_on_page b q).2.viewport_current_page = b.viewport_current_page := by
  have hfv : ∀ (b' : Browser) (s : Nat), find_next_viewport b' (some q) s = none :=
    fun b' s => find_next_viewport_ws b' q s h
  unfold find_on_page
  by_cases hc : b.find_on_page_query = some q ∧
      b.find_on_page_last_result = some b.viewport_current_page
  · rw [if_pos hc]
    unfold find_next
    simp only [hc.1, hfv]
    exact ⟨trivial, trivial⟩
  · rw [if_neg hc]
    simp only [hfv]
    exact ⟨trivial, trivial⟩

/-- The pattern `.* ` (normalized lone wildcard) matches at a leading space. -/
theorem matchHere_star_space (l : List Char) :
    matchHere [PatElem.star, PatElem.lit ' '] (' ' :: l) = true := by
  show matchStar (matchHere [PatElem.lit ' ']) (' ' :: l) = true
  show (matchHere [PatElem.lit ' '] (' ' :: l) ||
        matchStar (matchHere [PatElem.lit ' ']) l) = true
  have h : matchHere [PatElem.lit ' '] (' ' :: l) = true := by
    show (decide (' ' = ' ') && matchHere [] l) = true
    have : matchHere [] l = true := rfl
    rw [this]
    rfl
  rw [h]
  rfl

/-- The normalized lone wildcard query matches every normalized page text:
the translated pattern `.* ` finds the leading space that content
normalization always inserts. -/
theorem searchB_star (t : List Char) :
    searchB (parsePat (normalizeQuery ['*'])) (normalizeContent t) = true := by
  have h1 : parsePat (normalizeQuery ['*']) = [PatElem.star, PatElem.lit ' '] := rfl
  rw [h1]
  unfold normalizeContent
  rw [List.cons_append]
  show (matchHere [PatElem.star, PatElem.lit ' ']
      (' ' :: ((stripWs (List.intercalate [' '] (reSplitNonWord t))).map Char.toLower
        ++ [' '])) || _) = true
  rw [matchHere_star_space]
  rfl

/-- The page scan returns its first index when that page matches. -/
theorem scanPages_head_true (p : Nat → Bool) (i : Nat) (rest : List Nat)
    (h : p i = true) : scanPages p (i :: rest) = some i := by
  unfold scanPages
  rw [if_pos h]

/-- The circular index list from an in-range start begins with the start. -/
theorem idxsFrom_cons (s len : Nat) (h : s < len) :
    idxsFrom s len = s :: (pyRangeAux (s + 1) (len - s - 1) ++ pyRange 0 s) := by
  unfold idxsFrom pyRange
  rw [show len - s = (len - s - 1) + 1 by omega]
  rfl

/-- `find_on_page("*")` from a fresh-search state is a match on the current
page: the lone wildcard normalizes to `.* `, which is non-empty and matches
every page, so the scan stops at its first candidate — the current page. -/
theorem find_on_page_star (b : Browser)
    (hcur : b.viewport_current_page < b.viewport_pages.length)
    (hfresh : ¬ (b.find_on_page_query = some ['*'] ∧
                 b.find_on_page_last_result = some b.viewport_current_page)) :
    (find_on_page b ['*']).1 = some (viewport b) ∧
    (find_on_page b ['*']).2.viewport_current_page = b.viewport_current_page := by
  have hv : ∀ (b' : Browser), b'.viewport_pages = b.viewport_pages →
      find_next_viewport b' (some ['*']) b.viewport_current_page =
        some b.viewport_current_page := by
    intro b' hp
    unfold find_next_viewport
    simp only []
    rw [if_neg (by decide)]
    rw [hp, idxsFrom_cons _ _ hcur]
    exact scanPages_head_true _ _ _ (searchB_star _)
  unfold find_on_page
  rw [if_neg hfresh]
  simp only [hv { b with find_on_page_query := some ['*'] } rfl]
  exact ⟨rfl, trivial⟩

/-- A fresh one-page document `"hello world"`. -/
def starB : Browser :=
  { demoBase with page_content := "hello world".toList, viewport_pages := [(0, 11)] }

/-- A fresh one-page document `"xfoobar"`, whose text contains `"foobar"`. -/
def fooxB : Browser :=
  { demoBase with page_content := "xfoobar".toList, viewport_pages := [(0, 7)] }

/-- A fresh one-page document `"foobar"`. -/
def foobarB : Browser :=
  { demoBase with page_content := "foobar".toList, viewport_pages := [(0, 6)] }

/-- Claim C6 (counterexample): the claim says the query `"*"` is empty after
normalization and matches nothing, and that `"foo*"` matches any page whose
text contains `"foobar"`.  Both parts fail: `"*"` normalizes to `".* "` and
matches the page `"hello world"`, while `"foo*"` (normalized `" foo.* "`)
does not match the page `"xfoobar"` even though its text contains
`"foobar"`. -/
theorem claim_C6_cex :
    (find_on_page starB ("*".toList)).1 ≠ none ∧
    (find_on_page fooxB ("foo*".toList)).1 = none := by decide

/-- Claim C6 (amended): an empty or all-whitespace query matches nothing and
leaves the page index unchanged.  The lone wildcard `"*"`, however, is NOT
empty after normalization — it becomes `".* "` — and matches every page, so
from a fresh-search state `find_on_page("*")` returns the current viewport
with the page index unchanged.  `"foo*"` matches a page whose text starts the
word `"foobar"` (e.g. the page `"foobar"`), though not every page merely
containing `"foobar"`. -/
theorem claim_C6 (b : Browser) (q : List Char)
    (hws : ∀ c ∈ q, c.isWhitespace = true)
    (hcur : b.viewport_current_page < b.viewport_pages.length)
    (hfresh : ¬ (b.find_on_page_query = some ['*'] ∧
                 b.find_on_page_last_result = some b.viewport_current_page)) :
    ((find_on_page b q).1 = none ∧
     (find_on_page b q).2.viewport_current_page = b.viewport_current_page) ∧
    (stripWs (normalizeQuery ['*']) ≠ [] ∧
     (find_on_page b ['*']).1 = some (viewport b) ∧
     (find_on_page b ['*']).2.viewport_current_page = b.viewport_current_page) ∧
    (find_on_page foobarB ("foo*".toList)).1 = some ("foobar".toList) := by
  refine ⟨find_on_page_ws b q hws, ⟨by decide, ?_, ?_⟩, by decide⟩
  · exact (find_on_page_star b hcur hfresh).1
  · exact (find_on_page_star b hcur hfresh).2

/-- Witness for C6 at a concrete state and query. -/
theorem claim_C6_witness :
    ((∀ c ∈ [' '], Char.isWhitespace c = true) ∧
     starB.viewport_current_page < starB.viewport_pages.length ∧
     ¬ (starB.find_on_page_query = some ['*'] ∧
        starB.find_on_page_last_result = some starB.viewport_current_page)) ∧
    (((find_on_page starB [' ']).1 = none ∧
      (find_on_page starB [' ']).2.viewport_current_page =
        starB.viewport_current_page) ∧
     (stripWs (normalizeQuery ['*']) ≠ [] ∧
      (find_on_page starB ['*']).1 = some (viewport starB) ∧
      (find_on_page starB ['*']).2.viewport_current_page =
        starB.viewport_current_page) ∧
     (find_on_page foobarB ("foo*".toList)).1 = some ("foobar".toList)) :=
  ⟨⟨by decide, by decide, by decide⟩,
   claim_C6 starB [' '] (by decide) (by decide) (by decide)⟩

/-! ## Circular-scan lemmas for `find_next` -/

/-- The starting page `find_next` computes from a remembered last result `j`:
`j + 1`, wrapping to 0 when that would pass the last page. -/
def wrapS (j len : Nat) : Nat := if len ≤ j + 1 then 0 else j + 1

/-- Position of page `x` in the circular scan order that starts at `s`. -/
def circPos (s x len : Nat) : Nat := if s ≤ x then x - s else x + len - s

/-- The page at position `p` of the circular scan order that starts at `s`. -/
def elemAt (s p len : Nat) : Nat := if s + p < len then s + p else s + p - len

/-- Iterate the state effect of `find_next`. -/
def iterNext : Nat → Browser → Browser
  | 0, b => b
  | k + 1, b => iterNext k (find_next b).2

theorem pyRangeAux_length (a n : Nat) : (pyRangeAux a n).length = n := by
  induction n generalizing a with
  | zero => rfl
  | succ n ih => simpa [pyRangeAux] using ih (a + 1)

theorem pyRangeAux_get? :
    ∀ (n a i : Nat), i < n → (pyRangeAux a n).get? i = some (a + i) := by
  intro n
  induction n with
  | zero => intro a i h; omega
  | succ n ih =>
    intro a i h
    cases i with
    | zero => rfl
    | succ i =>
      show (pyRangeAux (a + 1) n).get? i = some (a + (i + 1))
      rw [ih (a + 1) i (by omega)]
      congr 1
      omega

theorem pyRangeAux_mem :
    ∀ (n a x : Nat), x ∈ pyRangeAux a n ↔ (a ≤ x ∧ x < a + n) := by
  intro n
  induction n with
  | zero => intro a x; simp [pyRangeAux]
  | succ n ih =>
    intro a x
    simp only [pyRangeAux, List.mem_cons, ih (a + 1) x]
    omega

theorem idxsFrom_length (s len : Nat) (h : s ≤ len) :
    (idxsFrom s len).length = len := by
  unfold idxsFrom pyRange
  rw [List.length_append, pyRangeAux_length, pyRangeAux_length]
  omega

theorem idxsFrom_mem (s len x : Nat) (h : s ≤ len) :
    x ∈ idxsFrom s len ↔ x < len := by
  unfold idxsFrom pyRange
  simp only [List.mem_append, pyRangeAux_mem]
  omega

theorem idxsFrom_get? (s len p : Nat) (hs : s ≤ len) (hp : p < len) :
    (idxsFrom s len).get? p = some (elemAt s p len) := by
  unfold idxsFrom pyRange elemAt
  by_cases hc : p < len - s
  · rw [List.get?_append (by rw [pyRangeAux_length]; exact hc)]
    rw [pyRangeAux_get? (len - s) s p hc]
    rw [if_pos (by omega)]
  · rw [List.get?_append_right (by rw [pyRangeAux_length]; omega)]
    rw [pyRangeAux_length]
    simp only [Nat.sub_zero]
    rw [pyRangeAux_get? s 0 (p - (len - s)) (by omega)]
    rw [if_neg (by omega)]
    congr 1
    omega

theorem elemAt_lt (s p len : Nat) (hs : s < len) (hp : p < len) :
    elemAt s p len < len := by
  unfold elemAt
  split <;> omega

theorem circPos_lt (s x len : Nat) (hs : s < len) (hx : x < len) :
    circPos s x len < len := by
  unfold circPos
  split <;> omega

theorem elemAt_circPos (s x len : Nat) (hs : s < len) (hx : x < len) :
    elemAt s (circPos s x len) len = x := by
  unfold elemAt circPos
  split_ifs <;> omega

theorem circPos_elemAt (s p len : Nat) (hs : s < len) (hp : p < len) :
    circPos s (elemAt s p len) len = p := by
  unfold elemAt circPos
  split_ifs <;> omega

theorem wrapS_lt (j len : Nat) (hlen : 0 < len) : wrapS j len < len := by
  unfold wrapS
  split <;> omega

/-- Scanning from just past `m` itself, `m` sits at the last position. -/
theorem circPos_wrapS_self (m len : Nat) (hm : m < len) :
    circPos (wrapS m len) m len = len - 1 := by
  unfold circPos wrapS
  split_ifs <;> omega

/-- One `find_next` hop strictly shrinks the circular distance to `m`. -/
theorem circ_decrease (s j m len : Nat) (hs : s < len) (hj : j < len)
    (hm : m < len) (hlt : circPos s j len < circPos s m len) :
    circPos (wrapS j len) m len < circPos s m len := by
  unfold circPos at hlt
  unfold circPos wrapS
  split_ifs at hlt ⊢ <;> omega

/-- A successful scan splits the index list at the first match. -/
theorem scanPages_decomp (p : Nat → Bool) :
    ∀ (l : List Nat) (j : Nat), scanPages p l = some j →
      ∃ l1 l2, l = l1 ++ j :: l2 ∧ p j = true ∧ ∀ x ∈ l1, p x = false := by
  intro l
  induction l with
  | nil => intro j h; exact absurd h (by simp [scanPages])
  | cons i rest ih =>
    intro j h
    unfold scanPages at h
    by_cases hp : p i = true
    · rw [if_pos hp] at h
      obtain rfl : i = j := by injection h
      exact ⟨[], rest, rfl, hp, by simp⟩
    · rw [if_neg hp] at h
      obtain ⟨l1, l2, hl, hpj, hl1⟩ := ih j h
      refine ⟨i :: l1, l2, by rw [hl]; rfl, hpj, ?_⟩
      intro x hx
      rcases List.mem_cons.mp hx with rfl | hx'
      · simpa using hp
      · exact hl1 x hx'

/-- A scan over a list containing a match succeeds. -/
theorem scanPages_some_of_mem (p : Nat → Bool) :
    ∀ (l : List Nat) (i : Nat), i ∈ l → p i = true →
      ∃ j, scanPages p l = some j := by
  intro l
  induction l with
  | nil => intro i h; cases h
  | cons a rest ih =>
    intro i hi hpi
    unfold scanPages
    by_cases hp : p a = true
    · exact ⟨a, by rw [if_pos hp]⟩
    · rcases List.mem_cons.mp hi with rfl | hi'
      · exact absurd hpi hp
      · obtain ⟨j, hj⟩ := ih i hi' hpi
        exact ⟨j, by rw [if_neg hp]; exact hj⟩

/-- The circular scan from `s` stops at a match `j` whose circular position
is no later than that of any given match `m`; it equals `m`'s position only
at `m` itself. -/
theorem scan_circ (p : Nat → Bool) (len s m : Nat) (hs : s < len)
    (hm : m < len) (hpm : p m = true) :
    ∃ j, scanPages p (idxsFrom s len) = some j ∧ j < len ∧ p j = true ∧
      (j = m ∨ circPos s j len < circPos s m len) := by
  have hmem : m ∈ idxsFrom s len := (idxsFrom_mem s len m (by omega)).mpr hm
  obtain ⟨j, hj⟩ := scanPages_some_of_mem p (idxsFrom s len) m hmem hpm
  obtain ⟨l1, l2, hl, hpj, hl1⟩ := scanPages_decomp p (idxsFrom s len) j hj
  have hlen : (idxsFrom s len).length = len := idxsFrom_length s len (by omega)
  have hl1lt : l1.length < len := by
    have := congrArg List.length hl
    rw [hlen] at this
    simp at this
    omega
  have hgetj : (idxsFrom s len).get? l1.length = some j := by
    rw [hl, List.get?_append_right (Nat.le_refl _)]
    simp
  have hj_eq : j = elemAt s l1.length len := by
    rw [idxsFrom_get? s len l1.length (by omega) hl1lt] at hgetj
    injection hgetj with h
    exact h.symm
  have hpmlt : circPos s m len < len := circPos_lt s m len hs hm
  have hgetm : (idxsFrom s len).get? (circPos s m len) = some m := by
    rw [idxsFrom_get? s len _ (by omega) hpmlt, elemAt_circPos s m len hs hm]
  have hge : l1.length ≤ circPos s m len := by
    by_contra hlt
    push_neg at hlt
    have hin : (idxsFrom s len).get? (circPos s m len) = l1.get? (circPos s m len) := by
      rw [hl, List.get?_append hlt]
    have : m ∈ l1 := List.get?_mem (by rw [← hin]; exact hgetm)
    exact absurd hpm (by simp [hl1 m this])
  have hcj : circPos s j len = l1.length := by
    rw [hj_eq, circPos_elemAt s l1.length len hs hl1lt]
  refine ⟨j, hj, by rw [hj_eq]; exact elemAt_lt s l1.length len hs hl1lt, hpj, ?_⟩
  by_cases hjm : j = m
  · exact Or.inl hjm
  · right
    rcases Nat.lt_or_ge l1.length (circPos s m len) with h | h
    · omega
    · have heq : l1.length = circPos s m len := by omega
      rw [heq, elemAt_circPos s m len hs hm] at hj_eq
      exact absurd hj_eq hjm

/-- Page matching only depends on the pages and the content. -/
theorem pageMatches_congr (b b' : Browser) (hp : b'.viewport_pages = b.viewport_pages)
    (hc : b'.page_content = b.page_content) (nq : List Char) (i : Nat) :
    pageMatches b' nq i = pageMatches b nq i := by
  unfold pageMatches pageText pySlice
  rw [hp, hc]

/-- One `find_next` call from a state with an active query, a remembered last
result, and a matching page `m`: it returns a match, lands on a matching page
`j'`, and either `j'` is `m` itself or the circular distance to `m` strictly
decreases. -/
theorem find_next_step (b : Browser) (q : List Char) (j m : Nat)
    (H1 : b.find_on_page_query = some q)
    (H2 : b.find_on_page_last_result = some j)
    (H5 : m < b.viewport_pages.length)
    (H4 : pageMatches b (normalizeQuery q) m = true)
    (H6 : stripWs (normalizeQuery q) ≠ []) :
    ∃ j', (find_next b).1 ≠ none ∧
      (find_next b).2.find_on_page_last_result = some j' ∧
      (find_next b).2.viewport_current_page = j' ∧
      j' < b.viewport_pages.length ∧
      pageMatches b (normalizeQuery q) j' = true ∧
      (j' = m ∨ circPos (wrapS j' b.viewport_pages.length) m b.viewport_pages.length <
                circPos (wrapS j b.viewport_pages.length) m b.viewport_pages.length) := by
  have hlen : 0 < b.viewport_pages.length := by omega
  have hs : wrapS j b.viewport_pages.length < b.viewport_pages.length :=
    wrapS_lt j _ hlen
  obtain ⟨j', hscan, hj'len, hpj', hcase⟩ :=
    scan_circ (fun i => pageMatches b (normalizeQuery q) i) b.viewport_pages.length
      (wrapS j b.viewport_pages.length) m hs H5 H4
  have hv : find_next_viewport b (some q) (wrapS j b.viewport_pages.length) =
      some j' := by
    unfold find_next_viewport
    simp only []
    rw [if_neg H6]
    exact hscan
  refine ⟨j', ?_⟩
  unfold find_next
  simp only [H1, H2]
  rw [show (if b.viewport_pages.length ≤ j + 1 then 0 else j + 1) =
      wrapS j b.viewport_pages.length from rfl]
  simp only [hv]
  refine ⟨by simp, by trivial, by trivial, hj'len, hpj', ?_⟩
  rcases hcase with h | h
  · exact Or.inl h
  · exact Or.inr (circ_decrease _ j' m _ hs hj'len H5 h)

/-- The search invariant carried across `find_next` iterations: active query
`q`, some remembered last result, and page `m` in range and matching. -/
def searchInv (b : Browser) (q : List Char) (m : Nat) : Prop :=
  b.find_on_page_query = some q ∧
  m < b.viewport_pages.length ∧
  pageMatches b (normalizeQuery q) m = true ∧
  ∃ j, b.find_on_page_last_result = some j

theorem searchInv_step (b : Browser) (q : List Char) (m : Nat)
    (h : searchInv b q m) (H6 : stripWs (normalizeQuery q) ≠ []) :
    (find_next b).1 ≠ none ∧ searchInv (find_next b).2 q m := by
  obtain ⟨H1, H5, H4, j, H2⟩ := h
  obtain ⟨j', hne, hlast, _, _, _, _⟩ := find_next_step b q j m H1 H2 H5 H4 H6
  have hf := find_next_frame b
  refine ⟨hne, ?_, ?_, ?_, j', hlast⟩
  · rw [hf.2.2.2.2.1]; exact H1
  · rw [hf.2.1]; exact H5
  · rw [pageMatches_congr b (find_next b).2 hf.2.1 hf.1]
    exact H4

theorem searchInv_iter (q : List Char) (m : Nat)
    (H6 : stripWs (normalizeQuery q) ≠ []) :
    ∀ (k : Nat) (b : Browser), searchInv b q m → searchInv (iterNext k b) q m := by
  intro k
  induction k with
  | zero => intro b h; exact h
  | succ k ih =>
    intro b h
    exact ih (find_next b).2 (searchInv_step b q m h H6).2

/-- Strong-induction core of the wrap-around property: from a state whose
remembered result is `j`, within `d + 1` further `find_next` calls the
browser lands back on the matching page `m`, where `d` bounds the circular
distance from `find_next`'s next starting page to `m`. -/
theorem find_next_reaches (q : List Char) (m : Nat)
    (H6 : stripWs (normalizeQuery q) ≠ []) :
    ∀ (d : Nat) (b : Browser) (j : Nat),
      b.find_on_page_query = some q →
      b.find_on_page_last_result = some j →
      m < b.viewport_pages.length →
      pageMatches b (normalizeQuery q) m = true →
      circPos (wrapS j b.viewport_pages.length) m b.viewport_pages.length ≤ d →
      ∃ k, 1 ≤ k ∧ k ≤ d + 1 ∧
        (iterNext k b).find_on_page_last_result = some m ∧
        (iterNext k b).viewport_current_page = m := by
  intro d
  induction d with
  | zero =>
    intro b j H1 H2 H5 H4 hd
    obtain ⟨j', _, hlast, hcur, _, _, hcase⟩ := find_next_step b q j m H1 H2 H5 H4 H6
    rcases hcase with rfl | hlt
    · exact ⟨1, by omega, by omega,
        by show (find_next b).2.find_on_page_last_result = some j'; exact hlast,
        by show (find_next b).2.viewport_current_page = j'; exact hcur⟩
    · omega
  | succ d ih =>
    intro b j H1 H2 H5 H4 hd
    obtain ⟨j', _, hlast, hcur, hj'len, _, hcase⟩ :=
      find_next_step b q j m H1 H2 H5 H4 H6
    rcases hcase with rfl | hlt
    · exact ⟨1, by omega, by omega,
        by show (find_next b).2.find_on_page_last_result = some j'; exact hlast,
        by show (find_next b).2.viewport_current_page = j'; exact hcur⟩
    · have hf := find_next_frame b
      have H1' : (find_next b).2.find_on_page_query = some q := by
        rw [hf.2.2.2.2.1]; exact H1
      have H5' : m < (find_next b).2.viewport_pages.length := by
        rw [hf.2.1]; exact H5
      have H4' : pageMatches (find_next b).2 (normalizeQuery q) m = true := by
        rw [pageMatches_congr b (find_next b).2 hf.2.1 hf.1]; exact H4
      have hd' : circPos (wrapS j' (find_next b).2.viewport_pages.length) m
          (find_next b).2.viewport_pages.length ≤ d := by
        rw [hf.2.1]
        omega
      obtain ⟨k, hk1, hk2, hkl, hkc⟩ := ih (find_next b).2 j' H1' hlast H5' H4' hd'
      exact ⟨k + 1, by omega, by omega,
        by show (iterNext k (find_next b).2).find_on_page_last_result = some m; exact hkl,
        by show (iterNext k (find_next b).2).viewport_current_page = m; exact hkc⟩

/-- Claim C7: when the active query matches the remembered page `m`, every
`find_next` call (now and after any number of iterations) returns a match,
and some iterate of `find_next` within `len(viewport_pages)` calls lands back
on page `m` — the scan starts at `last + 1` (wrapping to 0) and visits every
page circularly, the starting page included. -/
theorem claim_C7 (b : Browser) (q : List Char) (m : Nat)
    (H1 : b.find_on_page_query = some q)
    (H2 : b.find_on_page_last_result = some m)
    (H5 : m < b.viewport_pages.length)
    (H4 : pageMatches b (normalizeQuery q) m = true)
    (H6 : stripWs (normalizeQuery q) ≠ []) :
    (∀ k, (find_next (iterNext k b)).1 ≠ none) ∧
    (∃ k, 1 ≤ k ∧ k ≤ b.viewport_pages.length ∧
      (iterNext k b).find_on_page_last_result = some m ∧
      (iterNext k b).viewport_current_page = m) := by
  constructor
  · intro k
    have hinv : searchInv b q m := ⟨H1, H5, H4, m, H2⟩
    exact (searchInv_step (iterNext k b) q m (searchInv_iter q m H6 k b hinv) H6).1
  · have hd : circPos (wrapS m b.viewport_pages.length) m b.viewport_pages.length ≤
        b.viewport_pages.length - 1 := by
      rw [circPos_wrapS_self m b.viewport_pages.length H5]
    obtain ⟨k, hk1, hk2, hkl, hkc⟩ :=
      find_next_reaches q m H6 (b.viewport_pages.length - 1) b m H1 H2 H5 H4 hd
    exact ⟨k, hk1, by omega, hkl, hkc⟩

/-- A fresh one-page document `"foo"` with the query `"foo"` active and its
match remembered on page 0. -/
def bC7 : Browser :=
  { demoBase with page_content := "foo".toList, viewport_pages := [(0, 3)],
                  find_on_page_query := some ("foo".toList),
                  find_on_page_last_result := some 0 }

/-- Witness for C7 at a concrete state. -/
theorem claim_C7_witness :
    (bC7.find_on_page_query = some ("foo".toList) ∧
     bC7.find_on_page_last_result = some 0 ∧
     0 < bC7.viewport_pages.length ∧
     pageMatches bC7 (normalizeQuery ("foo".toList)) 0 = true ∧
     stripWs (normalizeQuery ("foo".toList)) ≠ []) ∧
    ((∀ k, (find_next (iterNext k bC7)).1 ≠ none) ∧
     (∃ k, 1 ≤ k ∧ k ≤ bC7.viewport_pages.length ∧
       (iterNext k bC7).find_on_page_last_result = some 0 ∧
       (iterNext k bC7).viewport_current_page = 0)) :=
  ⟨⟨by decide, by decide, by decide, by decide, by decide⟩,
   claim_C7 bC7 ("foo".toList) 0 (by decide) (by decide) (by decide)
     (by decide) (by decide)⟩
